import Mathlib

/-!
Shallow embedding of the `surgeon` utility modules
(`surgeon/utils.py` and `surgeon/models/_utils.py`) and proofs of the
specification claims about them.

Conventions used throughout:
* pandas/numpy per-gene tables are embedded as `List Gene`, one record per
  gene, carrying the columns `hvg_batch` reads (`highly_variable_nbatches`
  and `dispersions_norm`); dispersions are embedded as integers (only their
  order is ever used by the code).
* Python's unbounded `while` loop in `hvg_batch` is embedded with explicit
  fuel; running out of fuel (`none`) models non-termination of the source
  loop, which the source does not guard against.
* the global numpy random generator is embedded by passing the random
  draw (a shuffled index list, a noise tensor) as an explicit argument.
-/

/-- One row of `adata.var` after `sc.pp.highly_variable_genes` has run:
the gene identifier, the `highly_variable_nbatches` column (in how many
batches the gene is flagged highly variable) and the `dispersions_norm`
column (normalized dispersion, embedded as an integer rank). -/
structure Gene where
  name : Nat
  nbatches : Nat
  disp : Int
deriving Repr, DecidableEq, Inhabited

/-- `Series.sort_values(ascending=False)` on the dispersion column:
sort gene records by dispersion, descending. -/
def sortByDispDesc (gs : List Gene) : List Gene :=
  gs.insertionSort (fun a b => b.disp ≤ a.disp)

/-- The `while not enough` fill-up loop of `hvg_batch`
(`surgeon/utils.py` lines 141-156).  State: `hvg` is the list of genes
accepted so far, `k` is `not_n_batches`.  Each iteration computes the
deficit `target_genes - len(hvg)`, pulls the genes whose
`highly_variable_nbatches` equals `n_batches - not_n_batches`; if that pool
is smaller than the deficit it is appended whole (unsorted, as in source)
and the loop continues with `not_n_batches + 1`, otherwise the pool is
sorted by dispersion descending, exactly the deficit is appended, and the
loop stops.  `fuel` bounds the number of iterations; `none` models the
source loop never setting `enough`. -/
def hvgLoop (genes : List Gene) (n_batches target_genes : Nat) :
    Nat → List Gene → Nat → Option (List Gene)
  | 0, _, _ => none
  | fuel + 1, hvg, k =>
    let diff : Int := (target_genes : Int) - (hvg.length : Int)
    let tmp := genes.filter (fun g => (g.nbatches : Int) = (n_batches : Int) - (k : Int))
    if (tmp.length : Int) < diff then
      hvgLoop genes n_batches target_genes fuel (hvg ++ tmp) (k + 1)
    else
      some (hvg ++ (sortByDispDesc tmp).take diff.toNat)

/-- `hvg_batch` (`surgeon/utils.py` lines 106-162), gene-selection core.
`genes` is the per-gene statistics table produced by the external
`sc.pp.highly_variable_genes` call, `n_batches` the number of batch
categories.  First the genes flagged in more than `n_batches - 1` batches
are taken, sorted by dispersion descending; if they exceed `target_genes`
the list is truncated there, otherwise the fill-up loop lowers the
batch-agreement level one step at a time starting at `not_n_batches = 1`.
Returns the selected gene names in order, or `none` if the source loop
would not terminate within `fuel` iterations. -/
def hvg_batch (genes : List Gene) (n_batches target_genes fuel : Nat) :
    Option (List Nat) :=
  let nbatch1 := sortByDispDesc
    (genes.filter (fun g => (n_batches : Int) - 1 < (g.nbatches : Int)))
  if target_genes < nbatch1.length then
    some ((nbatch1.take target_genes).map Gene.name)
  else
    (hvgLoop genes n_batches target_genes fuel nbatch1 1).map
      (fun l => l.map Gene.name)

/-- Number of genes whose `highly_variable_nbatches` is at most `a`. -/
def countLE (genes : List Gene) (a : Int) : Nat :=
  (genes.filter (fun g => (g.nbatches : Int) ≤ a)).length

/-- Number of genes whose `highly_variable_nbatches` equals `a`. -/
def countEq (genes : List Gene) (a : Int) : Nat :=
  (genes.filter (fun g => (g.nbatches : Int) = a)).length

lemma countLE_split (genes : List Gene) (a : Int) :
    countLE genes a = countEq genes a + countLE genes (a - 1) := by
  induction genes with
  | nil => rfl
  | cons g gs ih =>
    unfold countLE countEq at *
    simp only [List.filter_cons, decide_eq_true_eq]
    by_cases h : (g.nbatches : Int) = a
    · rw [if_pos (le_of_eq h), if_pos h,
        if_neg (show ¬ ((g.nbatches : Int) ≤ a - 1) by omega)]
      simp only [List.length_cons]
      omega
    · by_cases h1 : (g.nbatches : Int) ≤ a
      · rw [if_pos h1, if_neg h,
          if_pos (show (g.nbatches : Int) ≤ a - 1 by omega)]
        simp only [List.length_cons]
        omega
      · rw [if_neg h1, if_neg h,
          if_neg (show ¬ ((g.nbatches : Int) ≤ a - 1) by omega)]
        omega

lemma countLE_neg (genes : List Gene) (a : Int) (h : a < 0) :
    countLE genes a = 0 := by
  induction genes with
  | nil => rfl
  | cons g gs ih =>
    unfold countLE at *
    simp only [List.filter_cons, decide_eq_true_eq]
    rw [if_neg (show ¬ ((g.nbatches : Int) ≤ a) by omega)]
    exact ih

lemma length_split_nbatch (genes : List Gene) (nb : Nat) :
    genes.length =
      (genes.filter (fun g => (nb : Int) - 1 < (g.nbatches : Int))).length +
        countLE genes ((nb : Int) - 1) := by
  induction genes with
  | nil => rfl
  | cons g gs ih =>
    unfold countLE at *
    simp only [List.filter_cons, decide_eq_true_eq, List.length_cons]
    by_cases h : (nb : Int) - 1 < (g.nbatches : Int)
    · rw [if_pos h,
        if_neg (show ¬ ((g.nbatches : Int) ≤ (nb : Int) - 1) by omega)]
      simp only [List.length_cons]
      omega
    · rw [if_neg h,
        if_pos (show (g.nbatches : Int) ≤ (nb : Int) - 1 by omega)]
      simp only [List.length_cons]
      omega

lemma sortByDispDesc_length (gs : List Gene) :
    (sortByDispDesc gs).length = gs.length :=
  (List.perm_insertionSort _ gs).length_eq

lemma hvgLoop_succ (genes : List Gene) (nb tg fuel : Nat) (hvg : List Gene)
    (k : Nat) :
    hvgLoop genes nb tg (fuel + 1) hvg k =
      if ((genes.filter
          (fun g => (g.nbatches : Int) = (nb : Int) - (k : Int))).length : Int) <
            (tg : Int) - (hvg.length : Int) then
        hvgLoop genes nb tg fuel
          (hvg ++ genes.filter
            (fun g => (g.nbatches : Int) = (nb : Int) - (k : Int))) (k + 1)
      else
        some (hvg ++ (sortByDispDesc (genes.filter
          (fun g => (g.nbatches : Int) = (nb : Int) - (k : Int)))).take
            ((tg : Int) - (hvg.length : Int)).toNat) := rfl

/-- Main invariant lemma for the fill-up loop: if the accepted list is not
yet over quota and the genes at agreement levels `≤ n_batches - k` can still
cover the deficit, then with enough fuel the loop stops with exactly
`target_genes` genes. -/
lemma hvgLoop_length (genes : List Gene) (nb tg : Nat) :
    ∀ fuel k hvg, 1 ≤ fuel → nb + 1 ≤ fuel + k → 1 ≤ k →
      hvg.length ≤ tg →
      tg ≤ hvg.length + countLE genes ((nb : Int) - (k : Int)) →
      ∃ l, hvgLoop genes nb tg fuel hvg k = some l ∧ l.length = tg := by
  intro fuel
  induction fuel with
  | zero => intro k hvg h1; omega
  | succ fuel ih =>
    intro k hvg h1 h2 hk hlen hcov
    have htmp : (genes.filter
        (fun g => (g.nbatches : Int) = (nb : Int) - (k : Int))).length =
        countEq genes ((nb : Int) - (k : Int)) := rfl
    by_cases hcase :
        ((genes.filter
          (fun g => (g.nbatches : Int) = (nb : Int) - (k : Int))).length : Int)
          < (tg : Int) - (hvg.length : Int)
    · have hkn : k < nb := by
        by_contra hge
        push_neg at hge
        rcases eq_or_lt_of_le hge with heq | hlt
        · have h0 : (nb : Int) - (k : Int) = 0 := by omega
          have hs := countLE_split genes 0
          have hneg := countLE_neg genes (0 - 1) (by omega)
          have he : countEq genes ((nb : Int) - (k : Int)) = countEq genes 0 := by
            rw [h0]
          have hc : countLE genes ((nb : Int) - (k : Int)) = countLE genes 0 := by
            rw [h0]
          omega
        · have hneg := countLE_neg genes ((nb : Int) - (k : Int)) (by omega)
          omega
      rw [hvgLoop_succ, if_pos hcase]
      have hsplit := countLE_split genes ((nb : Int) - (k : Int))
      have hlvl : countLE genes ((nb : Int) - ((k : Nat) + 1 : Nat)) =
          countLE genes (((nb : Int) - (k : Int)) - 1) := by
        have : ((nb : Int) - ((k : Nat) + 1 : Nat)) =
            ((nb : Int) - (k : Int)) - 1 := by push_cast; omega
        rw [this]
      apply ih (k + 1)
      · omega
      · omega
      · omega
      · rw [List.length_append]
        omega
      · rw [List.length_append]
        omega
    · rw [hvgLoop_succ, if_neg hcase]
      refine ⟨_, rfl, ?_⟩
      rw [List.length_append, List.length_take, sortByDispDesc_length]
      omega

lemma hvg_batch_eq (genes : List Gene) (nb tg fuel : Nat) :
    hvg_batch genes nb tg fuel =
      if tg < (sortByDispDesc (genes.filter
          (fun g => (nb : Int) - 1 < (g.nbatches : Int)))).length then
        some (((sortByDispDesc (genes.filter
          (fun g => (nb : Int) - 1 < (g.nbatches : Int)))).take tg).map Gene.name)
      else
        (hvgLoop genes nb tg fuel (sortByDispDesc (genes.filter
          (fun g => (nb : Int) - 1 < (g.nbatches : Int)))) 1).map
            (fun l => l.map Gene.name) := rfl

/-- With a gene universe of at least `target_genes` genes, `hvg_batch` run
with `n_batches + 1` units of loop fuel succeeds and selects exactly
`target_genes` genes. -/
lemma hvg_batch_total (genes : List Gene) (nb tg : Nat)
    (htotal : tg ≤ genes.length) :
    ∃ l, hvg_batch genes nb tg (nb + 1) = some l ∧ l.length = tg := by
  rw [hvg_batch_eq]
  by_cases hbig : tg < (sortByDispDesc (genes.filter
      (fun g => (nb : Int) - 1 < (g.nbatches : Int)))).length
  · rw [if_pos hbig]
    refine ⟨_, rfl, ?_⟩
    rw [List.length_map, List.length_take]
    omega
  · rw [if_neg hbig]
    push_neg at hbig
    have hsp := length_split_nbatch genes nb
    have hsl := sortByDispDesc_length (genes.filter
      (fun g => (nb : Int) - 1 < (g.nbatches : Int)))
    have hone : countLE genes ((nb : Int) - ((1 : Nat) : Int)) =
        countLE genes ((nb : Int) - 1) := by norm_num
    obtain ⟨l, hl, hlen⟩ := hvgLoop_length genes nb tg (nb + 1) 1
      (sortByDispDesc (genes.filter
        (fun g => (nb : Int) - 1 < (g.nbatches : Int))))
      (by omega) (by omega) (by omega) (by omega) (by omega)
    refine ⟨l.map Gene.name, ?_, ?_⟩
    · rw [hl]
      rfl
    · rw [List.length_map]
      exact hlen

/-- C1: for every annotated matrix whose gene universe contains at least
`target_genes` genes (each gene carrying a `highly_variable_nbatches`
count and a normalized dispersion), `hvg_batch` returns a gene list of
length exactly `target_genes`. -/
theorem hvg_batch_length_target (genes : List Gene) (nb tg : Nat)
    (htotal : tg ≤ genes.length) :
    ∃ l, hvg_batch genes nb tg (nb + 1) = some l ∧ l.length = tg :=
  hvg_batch_total genes nb tg htotal

theorem hvg_batch_length_target_witness :
    2 ≤ ([⟨0, 1, 5⟩, ⟨1, 0, 3⟩] : List Gene).length ∧
    ∃ l, hvg_batch [⟨0, 1, 5⟩, ⟨1, 0, 3⟩] 1 2 (1 + 1) = some l ∧ l.length = 2 :=
  ⟨by decide, hvg_batch_length_target [⟨0, 1, 5⟩, ⟨1, 0, 3⟩] 1 2 (by decide)⟩

/-- C2: when the total number of genes is at least `target_genes`, the
threshold-lowering fill-up loop of `hvg_batch` terminates: `n_batches + 1`
units of fuel (one per batch-agreement level) are enough for the loop to
reach the `enough` state, so the run does not exhaust its fuel. -/
theorem hvg_batch_terminates (genes : List Gene) (nb tg : Nat)
    (htotal : tg ≤ genes.length) :
    (hvg_batch genes nb tg (nb + 1)).isSome := by
  obtain ⟨l, hl, _⟩ := hvg_batch_total genes nb tg htotal
  rw [hl]
  rfl

theorem hvg_batch_terminates_witness :
    3 ≤ ([⟨0, 2, 9⟩, ⟨1, 1, 5⟩, ⟨2, 0, 3⟩] : List Gene).length ∧
    (hvg_batch [⟨0, 2, 9⟩, ⟨1, 1, 5⟩, ⟨2, 0, 3⟩] 2 3 (2 + 1)).isSome :=
  ⟨by decide, hvg_batch_terminates [⟨0, 2, 9⟩, ⟨1, 1, 5⟩, ⟨2, 0, 3⟩] 2 3 (by decide)⟩

/-- Synthetic gene-dispersion table for the `hvg_batch` spec test: genes
0-4 are flagged highly variable in all 3 batches, genes 10-19 in exactly
2 batches (dispersions 30 down to 21), and genes 20-21 in only 1 batch
(with the largest dispersions of all, so that batch-agreement must beat
raw dispersion). -/
def hvgExampleGenes : List Gene :=
  [⟨0, 3, 50⟩, ⟨1, 3, 49⟩, ⟨2, 3, 48⟩, ⟨3, 3, 47⟩, ⟨4, 3, 46⟩,
   ⟨10, 2, 30⟩, ⟨11, 2, 29⟩, ⟨12, 2, 28⟩, ⟨13, 2, 27⟩, ⟨14, 2, 26⟩,
   ⟨15, 2, 25⟩, ⟨16, 2, 24⟩, ⟨17, 2, 23⟩, ⟨18, 2, 22⟩, ⟨19, 2, 21⟩,
   ⟨20, 1, 100⟩, ⟨21, 1, 99⟩]

/-- C3: on a table with exactly 5 genes variable in all 3 batches and 10
further genes variable in exactly 2 batches, `hvg_batch` with
`target_genes = 12` returns all 5 all-batch genes plus the 7
highest-dispersion two-batch genes (genes 10-16), and the list has length
exactly 12. -/
theorem hvg_batch_example :
    ∃ l, hvg_batch hvgExampleGenes 3 12 4 = some l ∧ l.length = 12 ∧
      [0, 1, 2, 3, 4] ⊆ l ∧ [10, 11, 12, 13, 14, 15, 16] ⊆ l := by
  refine ⟨[0, 1, 2, 3, 4, 10, 11, 12, 13, 14, 15, 16], ?_, ?_, ?_, ?_⟩
  · decide
  · decide
  · decide
  · decide

/-- The annotated-matrix object (`anndata.AnnData`) as far as this code
touches it: the cells-by-genes count matrix `X`, the per-cell batch label
column `obs` and the per-gene statistics table `var`. -/
structure AnnData where
  X : List (List Int)
  obs : List Nat
  var : List Gene
deriving Repr, DecidableEq, Inhabited

/-- `hvg_batch` (`surgeon/utils.py` lines 106-164) including its object
effects, over an explicit heap of `AnnData` objects (`heap`, with the
caller's matrix at index `p`).  The line
`adata_hvg = adata if adataOut else adata.copy()` either aliases the input
(`adataOut = true`) or appends a fresh copy to the heap; the external
statistics collaborator `sc.pp.highly_variable_genes` is the parameter
`stats` and its in-place effect is the write of the recomputed `var`
columns into whichever object `adata_hvg` denotes.  `n_batches` is the
number of batch categories of that object.  Returns the updated heap and
the selected gene-name list (the `adataOut = true` branch returns a fresh
matrix restricted to those genes in source; only the selected names are
modelled here, which is all the `adataOut = false` claim needs). -/
def hvg_batchProc (stats : AnnData → List Gene) (heap : List AnnData)
    (p : Nat) (target_genes fuel : Nat) (adataOut : Bool) :
    List AnnData × Option (List Nat) :=
  let tgt := if adataOut then p else heap.length
  let heap1 := if adataOut then heap else heap ++ [heap.getD p default]
  let a := heap1.getD tgt default
  let a1 : AnnData := ⟨a.X, a.obs, stats a⟩
  let heap2 := heap1.set tgt a1
  let n_batches := a1.obs.dedup.length
  (heap2, hvg_batch a1.var n_batches target_genes fuel)

/-- C9: with `adataOut = False`, `hvg_batch` leaves the caller's annotated
matrix unchanged: every statistic is written into the internal copy
(allocated at a fresh heap index), the object at the caller's index is
untouched, and the call only returns a gene-name list computed from the
statistics of that copy. -/
theorem hvg_batchProc_frame (stats : AnnData → List Gene)
    (heap : List AnnData) (p target_genes fuel : Nat)
    (hp : p < heap.length) :
    (hvg_batchProc stats heap p target_genes fuel false).1.getD p default =
      heap.getD p default ∧
    (hvg_batchProc stats heap p target_genes fuel false).2 =
      hvg_batch (stats (heap.getD p default))
        (heap.getD p default).obs.dedup.length target_genes fuel := by
  have hne : heap.length ≠ p := by omega
  simp only [hvg_batchProc, Bool.false_eq_true, if_false]
  have horig : (heap ++ [heap.getD p default]).getD heap.length default =
      heap.getD p default := by
    rw [List.getD, List.get?_eq_getElem?, List.getElem?_append_right (le_refl _)]
    simp
  rw [horig]
  constructor
  · rw [List.getD, List.get?_eq_getElem?, List.getElem?_set_ne hne,
      List.getElem?_append_left hp, List.getD, List.get?_eq_getElem?]
  · rfl

theorem hvg_batchProc_frame_witness :
    0 < ([⟨[[1]], [0, 1], [⟨0, 1, 2⟩]⟩] : List AnnData).length ∧
    ((hvg_batchProc (fun a => a.var) [⟨[[1]], [0, 1], [⟨0, 1, 2⟩]⟩]
        0 1 3 false).1.getD 0 default =
      ([⟨[[1]], [0, 1], [⟨0, 1, 2⟩]⟩] : List AnnData).getD 0 default ∧
    (hvg_batchProc (fun a => a.var) [⟨[[1]], [0, 1], [⟨0, 1, 2⟩]⟩]
        0 1 3 false).2 =
      hvg_batch ((fun (a : AnnData) => a.var)
          (([⟨[[1]], [0, 1], [⟨0, 1, 2⟩]⟩] : List AnnData).getD 0 default))
        (([⟨[[1]], [0, 1], [⟨0, 1, 2⟩]⟩] : List AnnData).getD
          0 default).obs.dedup.length 1 3) :=
  ⟨by decide, hvg_batchProc_frame (fun a => a.var)
    [⟨[[1]], [0, 1], [⟨0, 1, 2⟩]⟩] 0 1 3 (by decide)⟩

/-- Python's `int()` conversion on a rational (truncation toward zero),
applied by `train_test_split` to `adata.shape[0] * train_frac`. -/
def pyInt (q : ℚ) : Int :=
  if q < 0 then -(⌊-q⌋) else ⌊q⌋

/-- `train_test_split` (`surgeon/utils.py` lines 44-54): `n` is the row
count `adata.shape[0]` and `shuffled` is `np.arange(n)` after the global
`np.random.shuffle` (the random draw is passed explicitly).  The shuffled
index vector is cut at `int(n * train_frac)`; the two halves are the row
index sets of the returned train and validation views. -/
def train_test_split (n : Nat) (train_frac : ℚ) (shuffled : List Nat) :
    List Nat × List Nat :=
  let train_size := (pyInt ((n : ℚ) * train_frac)).toNat
  (shuffled.take train_size, shuffled.drop train_size)

/-- C6: for an `n`-row matrix and a fraction in `[0, 1]`,
`train_test_split` splits the shuffled row indices at
`floor(n * train_frac)` into two disjoint subsets that together cover all
`n` rows exactly once (sizes `⌊n·f⌋` and `n - ⌊n·f⌋`, e.g. 80 and 20 for
`n = 100`, `f = 0.8`). -/
theorem train_test_split_partition (n : Nat) (f : ℚ) (idx : List Nat)
    (hperm : List.Perm idx (List.range n)) (h0 : 0 ≤ f) (h1 : f ≤ 1) :
    ((train_test_split n f idx).1).Disjoint (train_test_split n f idx).2 ∧
    List.Perm ((train_test_split n f idx).1 ++ (train_test_split n f idx).2)
      (List.range n) ∧
    (train_test_split n f idx).1.length = (⌊(n : ℚ) * f⌋).toNat ∧
    (train_test_split n f idx).2.length = n - (⌊(n : ℚ) * f⌋).toNat := by
  have hq0 : 0 ≤ (n : ℚ) * f := mul_nonneg (by positivity) h0
  have hpy : pyInt ((n : ℚ) * f) = ⌊(n : ℚ) * f⌋ := by
    rw [pyInt, if_neg (not_lt.mpr hq0)]
  have hfl0 : 0 ≤ ⌊(n : ℚ) * f⌋ := Int.floor_nonneg.mpr hq0
  have hfln : ⌊(n : ℚ) * f⌋ ≤ n := by
    have : (n : ℚ) * f ≤ n := mul_le_of_le_one_right (by positivity) h1
    calc ⌊(n : ℚ) * f⌋ ≤ ⌊((n : Nat) : ℚ)⌋ := Int.floor_le_floor this
    _ = n := Int.floor_natCast n
  have hlen : idx.length = n := by
    rw [hperm.length_eq, List.length_range]
  have happ : (train_test_split n f idx).1 ++ (train_test_split n f idx).2 =
      idx := List.take_append_drop _ idx
  have hnodup : idx.Nodup := hperm.nodup_iff.mpr (List.nodup_range n)
  refine ⟨?_, ?_, ?_, ?_⟩
  · apply List.disjoint_of_nodup_append
    rw [happ]
    exact hnodup
  · rw [happ]
    exact hperm
  · show (idx.take (pyInt ((n : ℚ) * f)).toNat).length = _
    rw [List.length_take, hpy, hlen]
    omega
  · show (idx.drop (pyInt ((n : ℚ) * f)).toNat).length = _
    rw [List.length_drop, hpy, hlen]

theorem train_test_split_partition_witness :
    List.Perm ([4, 2, 0, 3, 1] : List Nat) (List.range 5) ∧
    (0 : ℚ) ≤ 4/5 ∧ (4 : ℚ)/5 ≤ 1 ∧
    (((train_test_split 5 (4/5) [4, 2, 0, 3, 1]).1).Disjoint
        (train_test_split 5 (4/5) [4, 2, 0, 3, 1]).2 ∧
      List.Perm ((train_test_split 5 (4/5) [4, 2, 0, 3, 1]).1 ++
        (train_test_split 5 (4/5) [4, 2, 0, 3, 1]).2) (List.range 5) ∧
      (train_test_split 5 (4/5) [4, 2, 0, 3, 1]).1.length =
        (⌊(5 : ℚ) * (4/5)⌋).toNat ∧
      (train_test_split 5 (4/5) [4, 2, 0, 3, 1]).2.length =
        5 - (⌊(5 : ℚ) * (4/5)⌋).toNat) :=
  ⟨by decide, by norm_num, by norm_num,
    train_test_split_partition 5 (4/5) [4, 2, 0, 3, 1]
      (by decide) (by norm_num) (by norm_num)⟩

/-- The polymorphic second argument of `label_encoder`
(`surgeon/utils.py` lines 26-33): a `dict` mapping condition values to
codes, an already-fitted `sklearn` `LabelEncoder` (modelled by its
transform map), or nothing (Python passes some non-dict, non-encoder
value such as `None`). -/
inductive EncoderArg (α : Type) where
  | dict (d : List (α × Int))
  | fitted (t : α → Int)
  | absent
deriving Inhabited

/-- The vectorized masked assignment
`labels[adata.obs[condition_key] == condition] = label`: every position
whose observation equals `c` is overwritten with `v`, positions are
otherwise kept. -/
def assignLabels {α : Type} [DecidableEq α] :
    List α → List Int → α → Int → List Int
  | [], _, _, _ => []
  | _ :: _, [], _, _ => []
  | o :: os, l :: ls, c, v => (if o = c then v else l) :: assignLabels os ls c v

/-- `label_encoder` (`surgeon/utils.py` lines 7-34).  `obs` is the
condition column `adata.obs[condition_key]`.  Dict branch: start from
`np.zeros(n)` and perform one masked assignment per `(condition, label)`
item, returning the dict unchanged; fitted branch: `transform` only;
otherwise fit a fresh `LabelEncoder` (its classes are the sorted distinct
observed values, `transform` maps a value to its class index) and return
it alongside the codes. -/
def label_encoder {α : Type} [LinearOrder α] (obs : List α)
    (arg : EncoderArg α) : List Int × EncoderArg α :=
  match arg with
  | .dict d =>
      (d.foldl (fun ls p => assignLabels obs ls p.1 p.2)
        (obs.map (fun _ => 0)), .dict d)
  | .fitted t => (obs.map t, .fitted t)
  | .absent =>
      (obs.map (fun x => (((obs.dedup).insertionSort (· ≤ ·)).indexOf x : Int)),
        .fitted (fun x => (((obs.dedup).insertionSort (· ≤ ·)).indexOf x : Int)))

lemma assignLabels_length {α : Type} [DecidableEq α] :
    ∀ (obs : List α) (ls : List Int) (c : α) (v : Int),
      (assignLabels obs ls c v).length = min obs.length ls.length
  | [], _, _, _ => by simp [assignLabels]
  | _ :: _, [], _, _ => by simp [assignLabels]
  | o :: os, l :: ls, c, v => by
    simp only [assignLabels, List.length_cons, assignLabels_length os ls c v]
    omega

lemma assignLabels_getD {α : Type} [DecidableEq α] (c : α) (v : Int) :
    ∀ (obs : List α) (ls : List Int) (i : Nat) (hi : i < obs.length),
      ls.length = obs.length →
      (assignLabels obs ls c v).getD i (-1) =
        if obs.get ⟨i, hi⟩ = c then v else ls.getD i (-1)
  | [], _, _, hi, _ => by simp at hi
  | o :: os, [], _, _, hl => by simp at hl
  | o :: os, l :: ls, 0, hi, hl => by
    simp [assignLabels]
  | o :: os, l :: ls, i + 1, hi, hl => by
    simp only [assignLabels, List.getD_cons_succ, List.get]
    exact assignLabels_getD c v os ls i (by simpa using hi) (by simpa using hl)

lemma foldl_assign_length {α : Type} [DecidableEq α] (obs : List α) :
    ∀ (d : List (α × Int)) (ls : List Int), ls.length = obs.length →
      (d.foldl (fun ls p => assignLabels obs ls p.1 p.2) ls).length =
        obs.length
  | [], ls, hl => hl
  | p :: d, ls, hl => by
    rw [List.foldl_cons]
    exact foldl_assign_length obs d _ (by rw [assignLabels_length]; omega)

lemma foldl_assign_getD_not_mem {α : Type} [DecidableEq α] (obs : List α)
    (i : Nat) (hi : i < obs.length) :
    ∀ (d : List (α × Int)) (ls : List Int), ls.length = obs.length →
      obs.get ⟨i, hi⟩ ∉ d.map Prod.fst →
      (d.foldl (fun ls p => assignLabels obs ls p.1 p.2) ls).getD i (-1) =
        ls.getD i (-1)
  | [], ls, hl, _ => rfl
  | p :: d, ls, hl, hmem => by
    rw [List.foldl_cons]
    have hne : obs.get ⟨i, hi⟩ ≠ p.1 := by
      intro h
      exact hmem (by rw [h]; exact List.mem_map_of_mem Prod.fst (List.mem_cons_self p d))
    rw [foldl_assign_getD_not_mem obs i hi d _
      (by rw [assignLabels_length]; omega) (by simp at hmem; simp [hmem]),
      assignLabels_getD p.1 p.2 obs ls i hi hl, if_neg hne]

lemma foldl_assign_getD_mem {α : Type} [DecidableEq α] (obs : List α)
    (i : Nat) (hi : i < obs.length) :
    ∀ (d : List (α × Int)) (ls : List Int), ls.length = obs.length →
      (d.map Prod.fst).Nodup →
      ∀ c v, (c, v) ∈ d → obs.get ⟨i, hi⟩ = c →
      (d.foldl (fun ls p => assignLabels obs ls p.1 p.2) ls).getD i (-1) = v
  | [], ls, hl, hnd, c, v, hmem, hro => by simp at hmem
  | p :: d, ls, hl, hnd, c, v, hmem, hro => by
    rw [List.foldl_cons]
    rcases List.mem_cons.mp hmem with heq | htail
    · have hc : p.1 = c := by rw [← heq]
      have hnotin : obs.get ⟨i, hi⟩ ∉ d.map Prod.fst := by
        rw [hro, ← hc]
        exact (List.nodup_cons.mp (by simpa using hnd)).1
      rw [foldl_assign_getD_not_mem obs i hi d _
        (by rw [assignLabels_length]; omega) hnotin,
        assignLabels_getD p.1 p.2 obs ls i hi hl, if_pos (by rw [hro, hc])]
      rw [← heq]
    · exact foldl_assign_getD_mem obs i hi d _
        (by rw [assignLabels_length]; omega)
        (List.nodup_cons.mp (by simpa using hnd)).2 c v htail hro

lemma map_zero_getD {α : Type} :
    ∀ (obs : List α) (i : Nat), i < obs.length →
      (obs.map (fun _ => (0 : Int))).getD i (-1) = 0
  | [], i, hi => by simp at hi
  | o :: os, 0, hi => rfl
  | o :: os, i + 1, hi => map_zero_getD os i (by simpa using hi)

/-- C7: calling `label_encoder` with a dict: every row whose condition
value is a key of the dict receives that key's code, every row whose
condition value is not a key is silently left at the default code 0, and
the dict itself is returned unchanged as the encoder. -/
theorem label_encoder_dict_lookup {α : Type} [LinearOrder α] (obs : List α)
    (d : List (α × Int)) (hnd : (d.map Prod.fst).Nodup)
    (i : Nat) (hi : i < obs.length) :
    (label_encoder obs (EncoderArg.dict d)).2 = EncoderArg.dict d ∧
    (∀ c v, (c, v) ∈ d → obs.get ⟨i, hi⟩ = c →
      ((label_encoder obs (EncoderArg.dict d)).1).getD i (-1) = v) ∧
    (obs.get ⟨i, hi⟩ ∉ d.map Prod.fst →
      ((label_encoder obs (EncoderArg.dict d)).1).getD i (-1) = 0) := by
  refine ⟨rfl, ?_, ?_⟩
  · intro c v hmem hro
    exact foldl_assign_getD_mem obs i hi d _ (by simp) hnd c v hmem hro
  · intro hnotin
    rw [show (label_encoder obs (EncoderArg.dict d)).1 =
      d.foldl (fun ls p => assignLabels obs ls p.1 p.2)
        (obs.map (fun _ => 0)) from rfl,
      foldl_assign_getD_not_mem obs i hi d _ (by simp) hnotin]
    exact map_zero_getD obs i hi

theorem label_encoder_dict_lookup_witness :
    (([(7, 3), (8, 5)] : List (Nat × Int)).map Prod.fst).Nodup ∧
    2 < ([7, 9, 8] : List Nat).length ∧
    ((label_encoder [7, 9, 8] (EncoderArg.dict [(7, 3), (8, 5)])).2 =
        EncoderArg.dict [(7, 3), (8, 5)] ∧
      (∀ c v, (c, v) ∈ ([(7, 3), (8, 5)] : List (Nat × Int)) →
        ([7, 9, 8] : List Nat).get ⟨2, by decide⟩ = c →
        ((label_encoder [7, 9, 8]
          (EncoderArg.dict [(7, 3), (8, 5)])).1).getD 2 (-1) = v) ∧
      (([7, 9, 8] : List Nat).get ⟨2, by decide⟩ ∉
          ([(7, 3), (8, 5)] : List (Nat × Int)).map Prod.fst →
        ((label_encoder [7, 9, 8]
          (EncoderArg.dict [(7, 3), (8, 5)])).1).getD 2 (-1) = 0)) :=
  ⟨by decide, by decide,
    label_encoder_dict_lookup [7, 9, 8] [(7, 3), (8, 5)] (by decide) 2 (by decide)⟩

/-- The `target_conditions` argument of `create_dictionary`: Python
accepts either a single condition value or a list of them
(`if not isinstance(target_conditions, list): target_conditions =
[target_conditions]`). -/
inductive TargetArg (α : Type) where
  | single (a : α)
  | listOf (l : List α)

/-- Normalization of `target_conditions` to a list, as done at the top of
`create_dictionary`. -/
def TargetArg.asList {α : Type} : TargetArg α → List α
  | .single a => [a]
  | .listOf l => l

/-- One Python `dictionary[condition] = idx` assignment on a dict embedded
as an insertion-ordered association list: an existing key is overwritten
in place, a fresh key is appended. -/
def dictInsert {α : Type} [DecidableEq α] (d : List (α × Nat)) (k : α)
    (v : Nat) : List (α × Nat) :=
  if d.any (fun p => p.1 = k) then
    d.map (fun p => if p.1 = k then (k, v) else p)
  else
    d ++ [(k, v)]

/-- `create_dictionary` (`surgeon/utils.py` lines 95-103): wrap a single
target condition into a list, drop all conditions contained in the target
list, then `for idx, condition in enumerate(conditions):
dictionary[condition] = idx`. -/
def create_dictionary {α : Type} [DecidableEq α] (conditions : List α)
    (target_conditions : TargetArg α) : List (α × Nat) :=
  (List.enum (conditions.filter
      (fun e => ¬ (e ∈ target_conditions.asList)))).foldl
    (fun d p => dictInsert d p.2 p.1) []

lemma foldl_dictInsert_fresh {α : Type} [DecidableEq α] :
    ∀ (ps : List (Nat × α)) (d : List (α × Nat)),
      (∀ p ∈ ps, ∀ q ∈ d, p.2 ≠ q.1) → (ps.map Prod.snd).Nodup →
      ps.foldl (fun d p => dictInsert d p.2 p.1) d =
        d ++ ps.map (fun p => (p.2, p.1))
  | [], d, _, _ => by simp
  | p :: ps, d, hfresh, hnd => by
    rw [List.foldl_cons]
    have hnew : dictInsert d p.2 p.1 = d ++ [(p.2, p.1)] := by
      rw [dictInsert, if_neg]
      simp only [List.any_eq_true, not_exists, not_and, decide_eq_true_eq]
      intro q hq
      exact fun h => hfresh p (List.mem_cons_self p ps) q hq h.symm
    have hnd2 := hnd
    rw [List.map_cons, List.nodup_cons] at hnd2
    rw [hnew, foldl_dictInsert_fresh ps (d ++ [(p.2, p.1)]) ?_ ?_]
    · simp
    · intro r hr q hq
      rcases List.mem_append.mp hq with hq1 | hq2
      · exact hfresh r (List.mem_cons_of_mem p hr) q hq1
      · have hqe : q = (p.2, p.1) := by simpa using hq2
        rw [hqe]
        intro hcontra
        simp only at hcontra
        exact hnd2.1 (by
          rw [← hcontra]
          exact List.mem_map_of_mem Prod.snd hr)
    · exact hnd2.2

/-- C10: for pairwise-distinct conditions, `create_dictionary` returns a
dictionary whose keys are exactly the conditions not contained in the
target conditions (single value or list), in order, each mapped to its
position in the filtered sequence: the values are `0, 1, ...` in order of
first appearance. -/
theorem create_dictionary_spec {α : Type} [DecidableEq α]
    (conditions : List α) (target_conditions : TargetArg α)
    (hnd : conditions.Nodup) :
    (create_dictionary conditions target_conditions).map Prod.fst =
      conditions.filter (fun e => ¬ (e ∈ target_conditions.asList)) ∧
    (create_dictionary conditions target_conditions).map Prod.snd =
      List.range (conditions.filter
        (fun e => ¬ (e ∈ target_conditions.asList))).length := by
  have hres : create_dictionary conditions target_conditions =
      (List.enum (conditions.filter
        (fun e => ¬ (e ∈ target_conditions.asList)))).map
          (fun p => (p.2, p.1)) := by
    rw [create_dictionary, foldl_dictInsert_fresh _ [] (by simp) ?_]
    · rfl
    · rw [List.enum_map_snd]
      exact hnd.filter _
  constructor
  · rw [hres, List.map_map]
    have : (Prod.fst ∘ fun p : Nat × α => (p.2, p.1)) = Prod.snd := rfl
    rw [this, List.enum_map_snd]
  · rw [hres, List.map_map]
    have : (Prod.snd ∘ fun p : Nat × α => (p.2, p.1)) = Prod.fst := rfl
    rw [this, List.enum_map_fst]

theorem create_dictionary_spec_witness :
    ([1, 2, 3] : List Nat).Nodup ∧
    ((create_dictionary [1, 2, 3] (TargetArg.single 2)).map Prod.fst =
      ([1, 2, 3] : List Nat).filter
        (fun e => ¬ (e ∈ (TargetArg.single (2 : Nat)).asList)) ∧
    (create_dictionary [1, 2, 3] (TargetArg.single 2)).map Prod.snd =
      List.range (([1, 2, 3] : List Nat).filter
        (fun e => ¬ (e ∈ (TargetArg.single (2 : Nat)).asList))).length) :=
  ⟨by decide, create_dictionary_spec [1, 2, 3] (TargetArg.single 2) (by decide)⟩

/-- `squared_distance` (`surgeon/models/_utils.py` lines 43-45): pairwise
squared Euclidean distance matrix between the rows of `x : [n, d]` and
`y : [m, d]`, via broadcasting.  Tensor entries are embedded as exact
rationals; the tensor runtime's `exp` is passed in explicitly wherever a
kernel needs it. -/
def squared_distance {n m d : Nat} (x : Fin n → Fin d → ℚ)
    (y : Fin m → Fin d → ℚ) : Fin n → Fin m → ℚ :=
  fun i j => ∑ k, (x i k - y j k) ^ 2

/-- The hardcoded bank of 19 bandwidth values of the "multi-scale-rbf"
kernel, spanning `1e-6` to `1e6`. -/
def sigmaBank : List ℚ :=
  [1/1000000, 1/100000, 1/10000, 1/1000, 1/100, 1/10, 1, 5, 10, 15,
   20, 25, 30, 35, 100, 1000, 10000, 100000, 1000000]

/-- `compute_kernel` (`surgeon/models/_utils.py` lines 6-40).  `expQ` is
the tensor runtime's elementwise `exp`.  "rbf": exponentiate the negated
per-pair mean squared coordinate difference divided (again) by the
embedding dimension.  "raphy": sum over the supplied `scales` of
`len(scales) * exp(-dist² / scale²)` (the source sets the broadcast
weight to the number of scales).  "multi-scale-rbf": average over the
hardcoded bandwidth bank of `exp(-dist² / (2·σ))`.  Any other kernel name
falls through every branch: the Python function returns `None`, embedded
as `none`. -/
def compute_kernel (expQ : ℚ → ℚ) {n m d : Nat} (x : Fin n → Fin d → ℚ)
    (y : Fin m → Fin d → ℚ) (kernel : String) (scales : List ℚ) :
    Option (Fin n → Fin m → ℚ) :=
  if kernel = "rbf" then
    some (fun i j =>
      expQ (-((∑ k, (x i k - y j k) ^ 2) / (d : ℚ)) / (d : ℚ)))
  else if kernel = "raphy" then
    some (fun i j => (scales.map (fun s =>
      (scales.length : ℚ) * expQ (-(squared_distance x y i j) / s ^ 2))).sum)
  else if kernel = "multi-scale-rbf" then
    some (fun i j => (sigmaBank.map (fun s =>
      expQ (-(1 / (2 * s) * squared_distance x y i j)))).sum /
        (sigmaBank.length : ℚ))
  else
    none

/-- `K.mean` of an `[n, m]` tensor: the sum of all entries divided by the
number of entries. -/
def meanK {n m : Nat} (K : Fin n → Fin m → ℚ) : ℚ :=
  (∑ i, ∑ j, K i j) / ((n : ℚ) * (m : ℚ))

/-- `compute_mmd` (`surgeon/models/_utils.py` lines 48-62): the MMD
estimator `mean(K(x,x)) + mean(K(y,y)) - 2·mean(K(x,y))`.  When the
kernel name is unrecognized the three kernel calls return no value and
the estimator is unusable (`none`). -/
def compute_mmd (expQ : ℚ → ℚ) {n m d : Nat} (x : Fin n → Fin d → ℚ)
    (y : Fin m → Fin d → ℚ) (kernel : String) (scales : List ℚ) :
    Option ℚ :=
  match compute_kernel expQ x x kernel scales,
      compute_kernel expQ y y kernel scales,
      compute_kernel expQ x y kernel scales with
  | some xk, some yk, some xyk =>
      some (meanK xk + meanK yk - 2 * meanK xyk)
  | _, _, _ => none

/-- C4: for every kernel argument other than "rbf", "raphy" and
"multi-scale-rbf", `compute_kernel` falls through all branches and
produces no value (and no error), for all inputs `x` and `y`. -/
theorem compute_kernel_unrecognized_none (expQ : ℚ → ℚ) {n m d : Nat}
    (x : Fin n → Fin d → ℚ) (y : Fin m → Fin d → ℚ) (kernel : String)
    (scales : List ℚ) (h1 : kernel ≠ "rbf") (h2 : kernel ≠ "raphy")
    (h3 : kernel ≠ "multi-scale-rbf") :
    compute_kernel expQ x y kernel scales = none := by
  rw [compute_kernel, if_neg h1, if_neg h2, if_neg h3]

theorem compute_kernel_unrecognized_none_witness :
    ("linear" ≠ "rbf") ∧ ("linear" ≠ "raphy") ∧
    ("linear" ≠ "multi-scale-rbf") ∧
    compute_kernel id (fun (_ : Fin 1) (_ : Fin 1) => (0 : ℚ))
      (fun (_ : Fin 1) (_ : Fin 1) => (0 : ℚ)) "linear" [] = none :=
  ⟨by decide, by decide, by decide,
    compute_kernel_unrecognized_none id
      (fun (_ : Fin 1) (_ : Fin 1) => (0 : ℚ))
      (fun (_ : Fin 1) (_ : Fin 1) => (0 : ℚ)) "linear" []
      (by decide) (by decide) (by decide)⟩

lemma compute_mmd_self (expQ : ℚ → ℚ) {n d : Nat}
    (x : Fin n → Fin d → ℚ) (kernel : String) (scales : List ℚ)
    (K0 : Fin n → Fin n → ℚ)
    (h : compute_kernel expQ x x kernel scales = some K0) :
    compute_mmd expQ x x kernel scales = some 0 := by
  unfold compute_mmd
  rw [h]
  show some (meanK K0 + meanK K0 - 2 * meanK K0) = some 0
  have hzero : meanK K0 + meanK K0 - 2 * meanK K0 = 0 := by ring
  rw [hzero]

/-- C5: for every supported kernel choice and every tensor `x`,
`compute_mmd (x, x, kernel)` is exactly 0 in exact arithmetic: the
estimator `mean(K(x,x)) + mean(K(y,y)) - 2·mean(K(x,y))` vanishes when
`y = x`. -/
theorem compute_mmd_self_zero (expQ : ℚ → ℚ) {n d : Nat}
    (x : Fin n → Fin d → ℚ) (kernel : String) (scales : List ℚ)
    (h : kernel = "rbf" ∨ kernel = "raphy" ∨ kernel = "multi-scale-rbf") :
    compute_mmd expQ x x kernel scales = some 0 := by
  rcases h with h | h | h <;> subst h
  · exact compute_mmd_self expQ x _ scales _ rfl
  · exact compute_mmd_self expQ x _ scales _ rfl
  · exact compute_mmd_self expQ x _ scales _ rfl

theorem compute_mmd_self_zero_witness :
    ("rbf" = "rbf" ∨ "rbf" = "raphy" ∨ "rbf" = "multi-scale-rbf") ∧
    compute_mmd id (fun (_ : Fin 1) (_ : Fin 1) => (3 : ℚ))
      (fun (_ : Fin 1) (_ : Fin 1) => (3 : ℚ)) "rbf" [] = some 0 :=
  ⟨Or.inl rfl, compute_mmd_self_zero id
    (fun (_ : Fin 1) (_ : Fin 1) => (3 : ℚ)) "rbf" [] (Or.inl rfl)⟩

/-- `sample_z` (`surgeon/models/_utils.py` lines 65-79): the
reparameterization trick.  The standard-normal draw `eps` of shape
`[batch_size, z_dim]` is passed explicitly (it models the consumed global
random stream); the return value is `mu + exp(log_var / 2) * eps`
elementwise.  The field and its `exp` are parameters so the same
definition serves exact and real-valued instantiations. -/
def sample_z {R : Type} [Field R] (expF : R → R) {b z : Nat}
    (mu log_var eps : Fin b → Fin z → R) : Fin b → Fin z → R :=
  fun i j => mu i j + expF (log_var i j / 2) * eps i j

/-- C8: given the drawn noise `eps`, `sample_z` returns exactly
`mu + exp(log_var/2) * eps` (a deterministic function of `mu` and
`log_var`), and as `log_var` tends to `-∞` the output tends to `mu`. -/
theorem sample_z_reparam (b z : Nat) (mu eps : Fin b → Fin z → ℝ)
    (i : Fin b) (j : Fin z) :
    (∀ log_var : Fin b → Fin z → ℝ,
      sample_z Real.exp mu log_var eps i j =
        mu i j + Real.exp (log_var i j / 2) * eps i j) ∧
    Filter.Tendsto (fun c : ℝ => sample_z Real.exp mu (fun _ _ => c) eps i j)
      Filter.atBot (nhds (mu i j)) := by
  refine ⟨fun _ => rfl, ?_⟩
  have h1 : Filter.Tendsto (fun c : ℝ => c / 2) Filter.atBot Filter.atBot :=
    Filter.Tendsto.atBot_div_const (by norm_num) Filter.tendsto_id
  have h2 : Filter.Tendsto (fun c : ℝ => Real.exp (c / 2))
      Filter.atBot (nhds 0) := Real.tendsto_exp_atBot.comp h1
  have h3 : Filter.Tendsto (fun c : ℝ => Real.exp (c / 2) * eps i j)
      Filter.atBot (nhds (0 * eps i j)) := h2.mul_const _
  have h4 : Filter.Tendsto (fun c : ℝ => mu i j + Real.exp (c / 2) * eps i j)
      Filter.atBot (nhds (mu i j + 0 * eps i j)) := h3.const_add _
  simpa using h4
